import Mathlib

/-!
Verification development for the vega-lite path extraction script
(src/plot/vega_lite_paths.py).  The script walks a JSON Schema document,
enumerates every reachable node, and derives three views: a flat path list,
a containment tree and a parent/child key graph.

The embedding models JSON values as an inductive type, Python runtime
errors (TypeError / KeyError / AttributeError) through the Except monad,
and the unbounded while-loops of the script through an explicit fuel
parameter, where fuel exhaustion is distinguished from normal results.
-/

namespace VL

/-- JSON values, as manipulated by the script. -/
inductive JSON where
  | null : JSON
  | bool (b : Bool) : JSON
  | num (n : Int) : JSON
  | str (s : String) : JSON
  | arr (elems : List JSON) : JSON
  | obj (fields : List (String × JSON)) : JSON

/-! Structural size of a JSON value, used as a termination measure.
Object entries also count the length of their key and string leaves count
their length, so that every value produced by Python iteration over a
container is strictly smaller than the container. -/
mutual
def sizeJ : JSON → Nat
  | .null => 1
  | .bool _ => 1
  | .num _ => 1
  | .str s => 1 + s.length
  | .arr xs => 1 + sizeArr xs
  | .obj kvs => 1 + sizeObj kvs
def sizeArr : List JSON → Nat
  | [] => 0
  | x :: xs => sizeJ x + sizeArr xs
def sizeObj : List (String × JSON) → Nat
  | [] => 0
  | (k, v) :: kvs => 1 + k.length + sizeJ v + sizeObj kvs
end

/-! All strings appearing anywhere in a JSON value as the value of a
reference field.  Used to bound the reference markers a traversal can
append to a raw path. -/
mutual
def refsJ : JSON → List String
  | .arr xs => refsArr xs
  | .obj kvs => refsObj kvs
  | _ => []
def refsArr : List JSON → List String
  | [] => []
  | x :: xs => refsJ x ++ refsArr xs
def refsObj : List (String × JSON) → List String
  | [] => []
  | (k, v) :: kvs =>
      (if k = "$ref" then (match v with | .str s => [s] | _ => []) else []) ++
        refsJ v ++ refsObj kvs
end

/-- Boolean prefix test on character lists. -/
def isPrefB : List Char → List Char → Bool
  | [], _ => true
  | _ :: _, [] => false
  | a :: as, b :: bs => a == b && isPrefB as bs

/-- Boolean substring test on character lists, modelling the Python
membership test on strings. -/
def isSubB (n : List Char) : List Char → Bool
  | [] => n.isEmpty
  | b :: bs => isPrefB n (b :: bs) || isSubB n bs

/-- Python startswith on strings: code-point prefix test. -/
def strStarts (pre s : String) : Bool := isPrefB pre.data s.data

/-- Lexicographic comparison of character lists by code point, the
Python string order. -/
def leChars : List Char → List Char → Bool
  | [], _ => true
  | _ :: _, [] => false
  | a :: as, b :: bs => if a == b then leChars as bs else decide (a.toNat < b.toNat)

/-- Python string order. -/
def strLe (a b : String) : Bool := leChars a.data b.data

/-- Python membership test on a JSON value.  For dictionaries it is a key
test, for lists an element test, for strings a substring test; numbers,
booleans and None are not iterable and raise a TypeError. -/
def containsJ : JSON → String → Except String Bool
  | .obj kvs, k => .ok ((kvs.find? fun kv => kv.1 == k).isSome)
  | .arr xs, k => .ok (xs.any fun x => match x with | .str s => s == k | _ => false)
  | .str s, k => .ok (isSubB k.data s.data)
  | _, _ => .error "TypeError"

/-- Python subscript access on a JSON value with a string key.  Only
dictionaries support it; a missing key is a KeyError and any other value
raises a TypeError. -/
def getJ : JSON → String → Except String JSON
  | .obj kvs, k =>
      match kvs.find? fun kv => kv.1 == k with
      | some kv => .ok kv.2
      | none => .error "KeyError"
  | _, _ => .error "TypeError"

/-- Python iteration over a JSON value: lists yield their elements,
dictionaries their keys, strings their characters; other values raise
a TypeError. -/
def iterJ : JSON → Except String (List JSON)
  | .arr xs => .ok xs
  | .obj kvs => .ok (kvs.map fun kv => .str kv.1)
  | .str s => .ok (s.data.map fun c => .str (String.singleton c))
  | _ => .error "TypeError"

/-- Split a character list on a separator character; used by the
modelled reference resolver. -/
def splitChar (c : Char) : List Char → List (List Char)
  | [] => [[]]
  | x :: xs =>
      let r := splitChar c xs
      if x == c then [] :: r
      else match r with
        | [] => [[x]]
        | h :: t => (x :: h) :: t

/-- Stable insertion of an element into a sorted list: placed after every
element less than or equal to it, so equal elements keep their original
relative order. -/
def insSorted (le : α → α → Bool) (x : α) : List α → List α
  | [] => [x]
  | y :: ys => if le y x then y :: insSorted le x ys else x :: y :: ys

/-- Stable sort, modelling Python sorted (any two stable sorts by the
same total key agree, so insertion sort is an exact model). -/
def stableSort (le : α → α → Bool) : List α → List α
  | [] => []
  | x :: xs => insSorted le x (stableSort le xs)

/-- Python sorted over the items of a dictionary: stable sort by key. -/
def sortPairs (kvs : List (String × JSON)) : List (String × JSON) :=
  stableSort (fun a b => strLe a.1 b.1) kvs

/-- A node of the schema graph: the fragment it denotes and the raw path
of traversal steps that reached it (class Node of the script). -/
structure Node where
  schema : JSON
  full_path : List String

/-- Canonical path: the root marker followed by the raw path with
union markers, reference strings and the items marker stripped
(property path of the script). -/
def Node.path (n : Node) : List String :=
  "vegalite" :: n.full_path.filter fun key =>
    !(strStarts "anyOf[" key || strStarts "#/" key || key == "items")

/-- Dot-joined canonical path (property pathstr). -/
def Node.pathstr (n : Node) : String := String.intercalate "." n.path

/-- Abbreviation of a reference marker: the Python slice from the last
slash of the string, or its last character when it has no slash. -/
def refAbbrev (key : String) : String :=
  if key.contains '/' then "/" ++ (key.splitOn "/").getLastD ""
  else key.takeRight 1

/-- Display path: union and items markers stripped, reference markers
abbreviated (property full_path_nice). -/
def Node.full_path_nice (n : Node) : List String :=
  "vegalite" :: (n.full_path.filter fun key =>
      !(strStarts "anyOf[" key || key == "items")).map fun key =>
    if strStarts "#" key then refAbbrev key else key

/-- Descriptive text of a fragment: the description field with the
non-breaking space normalised, or the empty string when the membership
test succeeds and finds nothing (property description).  A fragment on
which membership raises, or a non-string description value, is an error. -/
def descriptionE (n : Node) : Except String String :=
  (containsJ n.schema "description").bind fun b =>
    if b then
      (getJ n.schema "description").bind fun v =>
        match v with
        | .str s => .ok (s.replace "\u00A0" " ")
        | _ => .error "AttributeError"
    else .ok ""

/-- Last element of the canonical path (property name). -/
def Node.name (n : Node) : String := n.path.getLastD ""

/-- Shortened identity: the last two elements of the display path, or the
single element when the display path has length one (property id). -/
def Node.id (n : Node) : List String :=
  let p := n.full_path_nice
  if 1 < p.length then p.drop (p.length - 2) else p

/-- Node equality of the script: comparison of canonical paths. -/
def nodeEq (a b : Node) : Bool := a.path == b.path

/-- Node hashing of the script: a hash of the canonical path. -/
def nodeHash (a : Node) : UInt64 := hash a.path

/-- Sort key of node ordering: the dot-joined raw path. -/
def joinKey (n : Node) : String := String.intercalate "." n.full_path

/-- Adding a node to a Python set of nodes: kept out when an equal node
(equal canonical path) is already present, appended otherwise.  The list
records insertion order. -/
def setAdd (s : List Node) (c : Node) : List Node :=
  if s.any fun x => nodeEq x c then s else s ++ [c]

/-- Children contributed by the union-alternatives field: one per
alternative, appending a synthetic marker carrying the enumeration
index. -/
def enumAnyOf (fp : List String) : Nat → List JSON → List Node
  | _, [] => []
  | i, x :: xs =>
      Node.mk x (fp ++ ["anyOf[" ++ toString i ++ "]"]) :: enumAnyOf fp (i + 1) xs

/-- Children contributed by the reference field: none when the reference
already occurs in the raw path (cycle guard), otherwise a single child
wrapping the resolved fragment.  A non-string reference fails inside the
resolver. -/
def refKids (resolve : String → JSON) (fp : List String) : JSON → Except String (List Node)
  | .str ref =>
      if ref ∈ fp then .ok []
      else .ok [Node.mk (resolve ref) (fp ++ [ref])]
  | _ => .error "TypeError"

/-- Children contributed by the properties field: one per property,
sorted by key; a non-dictionary properties value has no items method. -/
def propKids (fp : List String) : JSON → Except String (List Node)
  | .obj kvs => .ok ((sortPairs kvs).map fun kv => Node.mk kv.2 (fp ++ [kv.1]))
  | _ => .error "AttributeError"

/-- The union-alternatives step of children: when the membership test
finds the anyOf field, iterate its value and emit one child per
alternative. -/
def anyOfClause (n : Node) : Except String (List Node) :=
  (containsJ n.schema "anyOf").bind fun b =>
    if b then
      (getJ n.schema "anyOf").bind fun v =>
        (iterJ v).bind fun xs => .ok (enumAnyOf n.full_path 0 xs)
    else .ok []

/-- The reference step of children: when the membership test finds the
reference field, apply the guarded reference jump. -/
def refClause (resolve : String → JSON) (n : Node) : Except String (List Node) :=
  (containsJ n.schema "$ref").bind fun b =>
    if b then (getJ n.schema "$ref").bind fun rv => refKids resolve n.full_path rv
    else .ok []

/-- The array-items step of children: when the membership test finds the
items field, emit one child with the synthetic items marker. -/
def itemsClause (n : Node) : Except String (List Node) :=
  (containsJ n.schema "items").bind fun b =>
    if b then
      (getJ n.schema "items").bind fun v => .ok [Node.mk v (n.full_path ++ ["items"])]
    else .ok []

/-- The object-properties step of children: when the membership test
finds the properties field, emit one child per property sorted by key. -/
def propsClause (n : Node) : Except String (List Node) :=
  (containsJ n.schema "properties").bind fun b =>
    if b then (getJ n.schema "properties").bind fun v => propKids n.full_path v
    else .ok []

/-- The children function of the script: union alternatives, reference
jump, array items, object properties, appended in that order; a raised
error in any step propagates. -/
def children (resolve : String → JSON) (node : Node) : Except String (List Node) :=
  (anyOfClause node).bind fun aKids =>
  (refClause resolve node).bind fun rKids =>
  (itemsClause node).bind fun iKids =>
  (propsClause node).bind fun pKids =>
  .ok (aKids ++ rKids ++ iKids ++ pKids)

/-- Worklist loop of real_children.  The queue is kept with the right end
of the Python deque at the head, so popping is taking the head and
extending with a list appends its reverse at the head.  A node whose
canonical path differs from the given root path is added to the result
set, a transparent hop is replaced by its children. -/
def rcLoop (resolve : String → JSON) (rp : List String) :
    Nat → List Node → List Node → Option (Except String (List Node))
  | 0, _, _ => none
  | _ + 1, [], acc => some (.ok acc)
  | fuel + 1, c :: rest, acc =>
      if c.path = rp then
        match children resolve c with
        | .error e => some (.error e)
        | .ok cs => rcLoop resolve rp fuel (cs.reverse ++ rest) acc
      else rcLoop resolve rp fuel rest (setAdd acc c)

/-- real_children of the script: expand through transparent hops and
collect the children whose canonical path differs from the node. -/
def real_children_fuel (resolve : String → JSON) (fuel : Nat) (node : Node) :
    Option (Except String (List Node)) :=
  match children resolve node with
  | .error e => some (.error e)
  | .ok cs => rcLoop resolve node.path fuel cs.reverse []

/-- Main traversal loop of process_all_paths: depth-first worklist, every
popped state is added to the node set, its children are pushed. -/
def papLoop (resolve : String → JSON) :
    Nat → List Node → List Node → Option (Except String (List Node))
  | 0, _, _ => none
  | _ + 1, [], nodes => some (.ok nodes)
  | fuel + 1, st :: rest, nodes =>
      match children resolve st with
      | .error e => some (.error e)
      | .ok ns => papLoop resolve fuel (ns ++ rest) (setAdd nodes st)

/-- Node sorting of the script: stable sort by the dot-joined raw path. -/
def sortNodes (ns : List Node) : List Node :=
  stableSort (fun a b => strLe (joinKey a) (joinKey b)) ns

/-- Blocklist filter: a node passes when no element of its canonical path
is in the blocklist. -/
def passesFilter (fl : List String) (n : Node) : Bool :=
  n.path.all fun p => !fl.contains p

/-- process_all_paths of the script: traverse from a root node with empty
raw path, sort the deduplicated node set, and filter it against the
blocklist when the blocklist is non-empty (an empty blocklist is falsy in
Python, so no filtering pass runs). -/
def process_all_paths_fuel (resolve : String → JSON) (fl : List String)
    (fuel : Nat) (schema : JSON) : Option (Except String (List Node)) :=
  match papLoop resolve fuel [Node.mk schema []] [] with
  | none => none
  | some (.error e) => some (.error e)
  | some (.ok nodes) =>
      let sorted := sortNodes nodes
      some (.ok (match fl with
        | [] => sorted
        | _ :: _ => sorted.filter (passesFilter fl)))

/-- A record of the graph view: a path element with the child and parent
entries appended on repeat encounters (dictionary values of
gather_edges). -/
structure GRec where
  key : String
  children : List (List String)
  parents : List (List String)
  deriving DecidableEq

/-- Replace the record of a key, appending one child entry and one parent
entry. -/
def updateRec (recs : List GRec) (k : String) (childE parentE : List String) : List GRec :=
  recs.map fun r =>
    if r.key == k then
      { r with children := r.children ++ [childE], parents := r.parents ++ [parentE] }
    else r

/-- Processing of one canonical path by gather_edges: a key seen for the
first time creates a fresh empty record and records no edge; a key seen
again appends its predecessor and successor, each as a singleton list, or
the empty list at the ends of the path. -/
def gatherVisit (path : List String) (acc : List GRec) (p : Nat × String) : List GRec :=
  if acc.any fun r => r.key == p.2 then
    let parentE := if 0 < p.1 then [path.getD (p.1 - 1) ""] else []
    let childE := if p.1 < path.length - 1 then [path.getD (p.1 + 1) ""] else []
    updateRec acc p.2 childE parentE
  else acc ++ [⟨p.2, [], []⟩]

def gatherStep (acc : List GRec) (path : List String) : List GRec :=
  path.enum.foldl (gatherVisit path) acc

/-- gather_edges of the script, over the canonical paths of the filtered
node list.  Record order is the insertion order of an OrderedDict. -/
def gather_edges (fps : List Node) : List GRec :=
  fps.foldl (fun acc fp => gatherStep acc fp.path) []

/-- A node of the tree view: path string, the node itself, the count of
real children when it is not a leaf, the expanded child subtrees and the
size field. -/
inductive Tree where
  | mk (path : String) (node : Node) (y : Option Nat) (children : List Tree) (size : Nat)

def Tree.path : Tree → String | .mk p _ _ _ _ => p
def Tree.node : Tree → Node | .mk _ n _ _ _ => n
def Tree.y : Tree → Option Nat | .mk _ _ y _ _ => y
def Tree.children : Tree → List Tree | .mk _ _ _ c _ => c
def Tree.size : Tree → Nat | .mk _ _ _ _ s => s

/-! All nodes of a tree, the root included. -/
mutual
def subtrees : Tree → List Tree
  | .mk p n y cs s => .mk p n y cs s :: subtreesL cs
def subtreesL : List Tree → List Tree
  | [] => []
  | t :: ts => subtrees t ++ subtreesL ts
end

/-! Number of descendant tree nodes, the node included, that had no real
children when expanded (recognisable by the absent y field). -/
mutual
def leaves : Tree → Nat
  | .mk _ _ y cs _ => (if y = none then 1 else 0) + leavesL cs
def leavesL : List Tree → Nat
  | [] => 0
  | t :: ts => leaves t + leavesL ts
end

/-! expand of the script, building the tree view.  The iteration order of
the real-children set is not fixed by the input; it is supplied as the
enumeration function enum applied before the blocklist filter.  A node
with no real children is a leaf of size one; otherwise the y field stores
the count of real children and size is the sum of the sizes of the
filtered, expanded children. -/
def expand_fuel (resolve : String → JSON) (enum : List Node → List Node)
    (fl : List String) : Nat → Node → Except String Tree
  | 0, _ => .error "OutOfFuel"
  | fuel + 1, node =>
    match real_children_fuel resolve fuel node with
    | none => .error "OutOfFuel"
    | some (.error e) => .error e
    | some (.ok cns) =>
      if cns.length = 0 then .ok (Tree.mk node.pathstr node none [] 1)
      else
        (((enum cns).filter (passesFilter fl)).mapM fun c =>
            expand_fuel resolve enum fl fuel c).bind
          fun kids =>
            .ok (Tree.mk node.pathstr node (some cns.length) kids
              ((kids.map Tree.size).sum))

/-- Modelled from the spec: the SchemaResolver collaborator is the
reference-resolution facility of the host JSON Schema library, absent
from the source tree.  It is modelled as standard intra-document JSON
pointer resolution: a reference of the form hash-slash-segments walks the
document by object keys; the bare hash resolves to the whole document.
Unresolvable segments fall back to the null value. -/
def resolvePointer (doc : JSON) (ref : String) : JSON :=
  if ref = "#" then doc
  else if strStarts "#/" ref then
    ((splitChar '/' (ref.data.drop 2)).map fun cs => String.mk cs).foldl
      (fun acc seg =>
        match acc with
        | .obj kvs => (match kvs.find? fun kv => kv.1 == seg with
            | some kv => kv.2
            | none => .null)
        | _ => .null) doc
  else doc

/-- The end-to-end scenario schema of the spec. -/
def scenarioSchema : JSON :=
  .obj [("properties", .obj [
          ("x", .obj [("type", .str "string")]),
          ("y", .obj [("$ref", .str "#/defs/Y")])]),
        ("defs", .obj [
          ("Y", .obj [("properties", .obj [("z", .obj [("type", .str "number")])])])])]

/-- A self-referencing fragment: its reference resolves to itself. -/
def selfFrag : JSON := .obj [("$ref", .str "#/defs/A")]

/-- A document holding the self-referencing fragment both as a property
and as the definition its reference points to. -/
def selfDoc : JSON :=
  .obj [("properties", .obj [("A", selfFrag)]), ("defs", .obj [("A", selfFrag)])]

/-- Two-property schema used to exhibit the dependence of the tree view
on set iteration order. -/
def twoPropSchema : JSON :=
  .obj [("properties", .obj [("a", .obj []), ("b", .obj [])])]

/-- The two nodes of the id-grouping scenario of the spec. -/
def colorNodes : List Node :=
  [Node.mk .null ["encoding", "color"], Node.mk .null ["mark", "color"]]

/-- Observation of a tree-view result: the path strings of all tree
nodes in preorder, or the error message. -/
def treePaths : Except String Tree → List String
  | .error e => [e]
  | .ok t => (subtrees t).map Tree.path

/-- Termination measure of a single queue node: the references of the
finite reference pool not yet in its raw path, weighted above the size of
its fragment.  Every child produced by the children function is strictly
smaller, because a reference child removes one reference from the pool
and all other children carry strictly smaller fragments. -/
def phiN (R : List String) (S : Nat) (c : Node) : Nat :=
  (R.filter fun r => !(c.full_path.contains r)).length * (S + 1) + sizeJ c.schema

/-- Termination measure of a whole worklist. -/
def qMeasure (R : List String) (S B : Nat) (queue : List Node) : Nat :=
  (queue.map fun c => B ^ phiN R S c).sum

/-!
Theorems.  Each claim of the specification is settled below; shared
helper lemmas come first.
-/

@[simp] theorem exceptOk_bind {α β : Type} (a : α) (f : α → Except String β) :
    (Except.ok a : Except String α).bind f = f a := rfl

@[simp] theorem exceptErr_bind {α β : Type} (e : String) (f : α → Except String β) :
    (Except.error e : Except String α).bind f = .error e := rfl

/-- C1: for the end-to-end scenario schema with an empty blocklist, the
deduplicated, sorted node set has exactly the canonical paths vegalite,
vegalite.x, vegalite.y, vegalite.y.z in that order; the raw paths show
that the hop through the reference collapsed into the node of y (the node
reached through the reference was merged away and only the z child
remains of it). -/
theorem c1_end_to_end_scenario :
    (process_all_paths_fuel (resolvePointer scenarioSchema) [] 12 scenarioSchema).map
        (fun r => r.map fun ns => ns.map Node.pathstr)
      = some (.ok ["vegalite", "vegalite.x", "vegalite.y", "vegalite.y.z"])
    ∧ (process_all_paths_fuel (resolvePointer scenarioSchema) [] 12 scenarioSchema).map
        (fun r => r.map fun ns => ns.map Node.full_path)
      = some (.ok [[], ["x"], ["y"], ["y", "#/defs/Y", "z"]]) :=
  ⟨rfl, rfl⟩

/-- C7: node equality is exactly canonical-path equality, equal nodes
have equal hashes, and two equal nodes collapse to a single element when
added to a set. -/
theorem c7_node_identity (a b : Node) :
    (nodeEq a b = true ↔ a.path = b.path)
    ∧ (nodeEq a b = true → nodeHash a = nodeHash b)
    ∧ (nodeEq a b = true → setAdd (setAdd [] a) b = [a]) := by
  refine ⟨by simp [nodeEq], ?_, ?_⟩
  · intro h
    have hp : a.path = b.path := by simpa [nodeEq] using h
    simp [nodeHash, hp]
  · intro h
    have h0 : setAdd [] a = [a] := rfl
    rw [h0]
    simp [setAdd, h]

/-- C7 witness: two nodes with different fragments and different raw
paths but the same canonical path collapse to one set element. -/
theorem c7_witness :
    setAdd (setAdd [] (Node.mk (.num 1) ["a", "items"])) (Node.mk .null ["a", "anyOf[0]"])
      = [Node.mk (.num 1) ["a", "items"]] :=
  (c7_node_identity (Node.mk (.num 1) ["a", "items"]) (Node.mk .null ["a", "anyOf[0]"])).2.2 rfl

/-- C10: the canonical-path projection strips every raw-path element that
is the items literal or carries the union or reference prefix, whatever
fragment it leads to, so a node reached through such an element shares
the canonical path of its parent and merges with it under node
equality. -/
theorem c10_marker_stripping (s sp : JSON) (fp : List String) (key : String)
    (h : key = "items" ∨ strStarts "anyOf[" key = true ∨ strStarts "#/" key = true) :
    (Node.mk sp (fp ++ [key])).path = (Node.mk s fp).path
    ∧ nodeEq (Node.mk sp (fp ++ [key])) (Node.mk s fp) = true := by
  have hp : (Node.mk sp (fp ++ [key])).path = (Node.mk s fp).path := by
    simp only [Node.path, List.filter_append]
    have hk : List.filter (fun k =>
        !(strStarts "anyOf[" k || strStarts "#/" k || k == "items")) [key] = [] := by
      rcases h with h | h | h
      · subst h; rfl
      · simp [List.filter_cons, h]
      · simp [List.filter_cons, h]
    rw [hk, List.append_nil]
  exact ⟨hp, by simp [nodeEq, hp]⟩

/-- C10 witness: a genuine object property literally named items is
stripped from the canonical path and the property node merges with its
parent. -/
theorem c10_witness :
    (Node.mk (JSON.obj []) (["a"] ++ ["items"])).path
        = (Node.mk (JSON.obj [("properties", JSON.obj [("items", JSON.obj [])])]) ["a"]).path
    ∧ nodeEq (Node.mk (JSON.obj []) (["a"] ++ ["items"]))
        (Node.mk (JSON.obj [("properties", JSON.obj [("items", JSON.obj [])])]) ["a"]) = true :=
  c10_marker_stripping _ _ ["a"] "items" (Or.inl rfl)

/-- C9 counterexample: a numeric fragment makes the membership test of
children raise a TypeError instead of returning normally, and likewise
for description on a boolean fragment. -/
theorem c9_counterexample :
    children (fun _ => JSON.null) (Node.mk (.num 5) []) = .error "TypeError"
    ∧ descriptionE (Node.mk (.bool true) []) = .error "TypeError" :=
  ⟨rfl, rfl⟩

/-- C9 amended: on every fragment on which the Python membership test
itself succeeds and reports all four recognised fields absent (all
dictionaries, lists and strings without the field spellings), children
returns normally with the empty child list, and description yields the
empty string when the membership test reports no description; fragments
that are numbers, booleans or null raise a TypeError instead. -/
theorem c9_no_recognised_fields (resolve : String → JSON) (j : JSON) (fp : List String)
    (h1 : containsJ j "anyOf" = .ok false) (h2 : containsJ j "$ref" = .ok false)
    (h3 : containsJ j "items" = .ok false) (h4 : containsJ j "properties" = .ok false) :
    children resolve (Node.mk j fp) = .ok []
    ∧ (containsJ j "description" = .ok false → descriptionE (Node.mk j fp) = .ok "") := by
  constructor
  · simp [children, anyOfClause, refClause, itemsClause, propsClause, h1, h2, h3, h4]
  · intro h5
    simp [descriptionE, h5]

/-- C9 witness: a plain object fragment with none of the recognised
fields yields no children and an empty description. -/
theorem c9_witness :
    children (fun _ => JSON.null) (Node.mk (JSON.obj [("type", JSON.str "string")]) []) = .ok []
    ∧ descriptionE (Node.mk (JSON.obj [("type", JSON.str "string")]) []) = .ok "" :=
  ⟨(c9_no_recognised_fields (fun _ => JSON.null) (JSON.obj [("type", JSON.str "string")]) []
      rfl rfl rfl rfl).1,
   (c9_no_recognised_fields (fun _ => JSON.null) (JSON.obj [("type", JSON.str "string")]) []
      rfl rfl rfl rfl).2 rfl⟩

/-- C8 evidence: both enumeration orders of a two-element set are
permutations of each other, yet they drive expand to different tree
views, so the tree output is not a function of the schema and blocklist
alone; the iteration order of the hash-based set varies with the
interpreter hash seed across runs. -/
theorem c8_enumeration_sensitivity :
    (∀ l : List Node, (List.reverse l).Perm l)
    ∧ expand_fuel (resolvePointer twoPropSchema) id [] 8 (Node.mk twoPropSchema [])
        ≠ expand_fuel (resolvePointer twoPropSchema) List.reverse [] 8 (Node.mk twoPropSchema []) := by
  refine ⟨fun l => l.reverse_perm, ?_⟩
  intro h
  have h1 := congrArg treePaths h
  rw [show treePaths (expand_fuel (resolvePointer twoPropSchema) id [] 8
        (Node.mk twoPropSchema [])) = ["vegalite", "vegalite.b", "vegalite.a"] from rfl,
      show treePaths (expand_fuel (resolvePointer twoPropSchema) List.reverse [] 8
        (Node.mk twoPropSchema [])) = ["vegalite", "vegalite.a", "vegalite.b"] from rfl] at h1
  exact absurd h1 (by decide)

theorem updateRec_keys (recs : List GRec) (k : String) (c p : List String) :
    (updateRec recs k c p).map GRec.key = recs.map GRec.key := by
  induction recs with
  | nil => rfl
  | cons r rest ih =>
      simp only [updateRec, List.map_cons] at ih ⊢
      rw [ih]
      by_cases h : r.key == k
      · simp [h]
      · simp [h]

theorem gatherVisit_keys_cases (path : List String) (acc : List GRec) (p : Nat × String) :
    ((gatherVisit path acc p).map GRec.key) = acc.map GRec.key
    ∨ ((gatherVisit path acc p).map GRec.key) = acc.map GRec.key ++ [p.2] := by
  by_cases h : (acc.any fun r => r.key == p.2) = true
  · left; simp [gatherVisit, h, updateRec_keys]
  · right; simp [gatherVisit, h]

theorem gatherVisit_nodup (path : List String) (acc : List GRec) (p : Nat × String)
    (h : (acc.map GRec.key).Nodup) : ((gatherVisit path acc p).map GRec.key).Nodup := by
  by_cases hc : (acc.any fun r => r.key == p.2) = true
  · simpa [gatherVisit, hc, updateRec_keys] using h
  · have hnot : p.2 ∉ acc.map GRec.key := by
      intro hmem
      obtain ⟨r, hr, hk⟩ := List.mem_map.1 hmem
      exact hc (List.any_eq_true.2 ⟨r, hr, by simp [hk]⟩)
    unfold gatherVisit
    rw [if_neg hc]
    simp only [List.map_append, List.map_cons, List.map_nil]
    rw [List.nodup_append]
    refine ⟨h, List.nodup_singleton _, fun x hx hmem => ?_⟩
    have hxp : x = p.2 := by simpa using hmem
    exact hnot (hxp ▸ hx)

theorem foldl_visit_nodup (path : List String) :
    ∀ (ps : List (Nat × String)) (acc : List GRec), (acc.map GRec.key).Nodup →
      ((ps.foldl (gatherVisit path) acc).map GRec.key).Nodup := by
  intro ps
  induction ps with
  | nil => intro acc h; simpa using h
  | cons p ps ih =>
      intro acc h
      simpa [List.foldl_cons] using ih _ (gatherVisit_nodup path acc p h)

theorem foldl_gather_nodup :
    ∀ (fps : List Node) (acc : List GRec), (acc.map GRec.key).Nodup →
      ((fps.foldl (fun acc fp => gatherStep acc fp.path) acc).map GRec.key).Nodup := by
  intro fps
  induction fps with
  | nil => intro acc h; simpa using h
  | cons fp fps ih =>
      intro acc h
      exact ih _ (foldl_visit_nodup fp.path fp.path.enum acc h)

/-- C2 counterexample: for the two nodes with canonical paths
vegalite.encoding.color and vegalite.mark.color, the single record for
color does not have parents containing both encoding and mark: the first
encounter of a key only creates its record and records no edge, so the
encoding parent is lost. -/
theorem c2_counterexample :
    ¬ ∃ r ∈ gather_edges colorNodes, r.key = "color"
        ∧ "encoding" ∈ r.parents.flatten ∧ "mark" ∈ r.parents.flatten := by
  decide

/-- C2 amended: the graph view has one record per unique canonical-path
element, of shape key, children, parents; edges are recorded only at
encounters after the creating one, as singleton lists; for the two-node
scenario the color record has parents containing only mark, the edge from
encoding having been dropped when the record was created. -/
theorem c2_graph_records :
    gather_edges colorNodes
      = [⟨"vegalite", [["mark"]], [[]]⟩, ⟨"encoding", [], []⟩,
         ⟨"color", [[]], [["mark"]]⟩, ⟨"mark", [], []⟩]
    ∧ ∀ fps : List Node, ((gather_edges fps).map GRec.key).Nodup :=
  ⟨rfl, fun fps => foldl_gather_nodup fps [] (by simp)⟩

@[simp] theorem exceptBindOp_ok {α β : Type} (a : α) (f : α → Except String β) :
    ((Except.ok a : Except String α) >>= f) = f a := rfl

@[simp] theorem exceptBindOp_err {α β : Type} (e : String) (f : α → Except String β) :
    ((Except.error e : Except String α) >>= f) = .error e := rfl

@[simp] theorem exceptPure {α : Type} (a : α) :
    (pure a : Except String α) = .ok a := rfl

theorem mapM_ok_mem (f : Node → Except String Tree) :
    ∀ (l : List Node) (res : List Tree), l.mapM f = .ok res →
      ∀ t ∈ res, ∃ c ∈ l, f c = .ok t := by
  intro l
  induction l with
  | nil =>
      intro res h t ht
      rw [List.mapM_nil] at h
      simp at h
      subst h
      simp at ht
  | cons a l ih =>
      intro res h t ht
      rw [List.mapM_cons] at h
      cases hfa : f a with
      | error e => rw [hfa] at h; simp at h
      | ok b =>
          cases hml : l.mapM f with
          | error e => rw [hfa, hml] at h; simp at h
          | ok bs =>
              rw [hfa, hml] at h
              simp at h
              subst h
              rcases List.mem_cons.1 ht with rfl | htb
              · exact ⟨a, List.mem_cons_self a l, hfa⟩
              · obtain ⟨c, hc, hct⟩ := ih bs hml t htb
                exact ⟨c, List.mem_cons_of_mem a hc, hct⟩

theorem mem_subtreesL {s : Tree} :
    ∀ {cs : List Tree}, s ∈ subtreesL cs ↔ ∃ k ∈ cs, s ∈ subtrees k := by
  intro cs
  induction cs with
  | nil => simp [subtreesL]
  | cons t ts ih => simp [subtreesL, List.mem_append, ih]

theorem mem_subtrees_iff (s : Tree) (p : String) (n : Node) (y : Option Nat)
    (cs : List Tree) (sz : Nat) :
    s ∈ subtrees (.mk p n y cs sz) ↔ s = .mk p n y cs sz ∨ ∃ k ∈ cs, s ∈ subtrees k := by
  rw [subtrees]
  simp [mem_subtreesL]

theorem self_mem_subtrees (t : Tree) : t ∈ subtrees t := by
  cases t with
  | mk p n y cs sz => rw [subtrees]; exact List.mem_cons_self _ _

theorem expand_paths_clean (resolve : String → JSON) (enum : List Node → List Node)
    (fl : List String) :
    ∀ (fuel : Nat) (node : Node) (t : Tree),
      (∀ p ∈ node.path, p ∉ fl) →
      expand_fuel resolve enum fl fuel node = .ok t →
      ∀ s ∈ subtrees t, ∀ p ∈ s.node.path, p ∉ fl := by
  intro fuel
  induction fuel with
  | zero => intro node t hn h; simp [expand_fuel] at h
  | succ fuel ih =>
      intro node t hn h
      rw [expand_fuel] at h
      split at h
      · simp at h
      · simp at h
      · rename_i cns hrc
        split at h
        · simp at h
          intro s hs
          rw [← h] at hs
          rcases (mem_subtrees_iff s _ _ _ _ _).1 hs with rfl | ⟨k, hk, _⟩
          · simpa [Tree.node] using hn
          · simp at hk
        · cases hmap : ((enum cns).filter (passesFilter fl)).mapM
              (fun c => expand_fuel resolve enum fl fuel c) with
          | error e => rw [hmap] at h; simp at h
          | ok kids =>
              rw [hmap] at h
              simp at h
              intro s hs
              rw [← h] at hs
              rcases (mem_subtrees_iff s _ _ _ _ _).1 hs with rfl | ⟨k, hk, hsk⟩
              · simpa [Tree.node] using hn
              · obtain ⟨c, hc, hck⟩ := mapM_ok_mem _ _ _ hmap k hk
                have hcf : passesFilter fl c = true := (List.mem_filter.1 hc).2
                have hcp : ∀ p ∈ c.path, p ∉ fl := by
                  intro p hp hpfl
                  have hall := List.all_eq_true.1 hcf p hp
                  simp at hall
                  exact hall hpfl
                exact ih c k hcp hck s hsk

theorem pap_filter_clean (resolve : String → JSON) (fl : List String) (fuel : Nat)
    (schema : JSON) (ns : List Node)
    (h : process_all_paths_fuel resolve fl fuel schema = some (.ok ns)) :
    ∀ n ∈ ns, ∀ p ∈ n.path, p ∉ fl := by
  unfold process_all_paths_fuel at h
  split at h
  · simp at h
  · simp at h
  · rename_i nodes hl
    simp at h
    cases fl with
    | nil => intro n hn p hp; simp
    | cons a as =>
        intro n hn p hp hpfl
        rw [← h] at hn
        have hps : passesFilter (a :: as) n = true := (List.mem_filter.1 hn).2
        have hall := List.all_eq_true.1 hps p hp
        simp at hall
        rcases List.mem_cons.1 hpfl with h1 | h1
        · exact hall.1 h1
        · exact hall.2 h1

theorem foldl_visit_keys (path : List String) :
    ∀ (ps : List (Nat × String)) (acc : List GRec) (k : String),
      k ∈ (ps.foldl (gatherVisit path) acc).map GRec.key →
      k ∈ acc.map GRec.key ∨ k ∈ ps.map Prod.snd := by
  intro ps
  induction ps with
  | nil => intro acc k h; left; simpa using h
  | cons p ps ih =>
      intro acc k h
      rcases ih _ k (by simpa using h) with h1 | h1
      · rcases gatherVisit_keys_cases path acc p with he | he
        · left; rwa [he] at h1
        · rw [he] at h1
          rcases List.mem_append.1 h1 with h2 | h2
          · left; exact h2
          · right
            simp at h2
            simp [h2]
      · right; simp [h1]

theorem gather_keys_origin :
    ∀ (fps : List Node) (acc : List GRec) (k : String),
      k ∈ (fps.foldl (fun acc fp => gatherStep acc fp.path) acc).map GRec.key →
      k ∈ acc.map GRec.key ∨ ∃ n ∈ fps, k ∈ n.path := by
  intro fps
  induction fps with
  | nil => intro acc k h; left; simpa using h
  | cons fp fps ih =>
      intro acc k h
      rcases ih _ k h with h1 | h1
      · rcases foldl_visit_keys fp.path fp.path.enum acc k h1 with h2 | h2
        · left; exact h2
        · right
          refine ⟨fp, by simp, ?_⟩
          rwa [List.enum_map_snd] at h2
      · right
        obtain ⟨n, hn, hk⟩ := h1
        exact ⟨n, by simp [hn], hk⟩

/-- C3 counterexample: with the blocklist containing the root marker, the
tree view still contains the root node, whose canonical path element
vegalite is in the blocklist; the root is expanded before any
filtering. -/
theorem c3_counterexample :
    expand_fuel (resolvePointer (JSON.obj [])) id ["vegalite"] 5 (Node.mk (JSON.obj []) [])
      = .ok (Tree.mk "vegalite" (Node.mk (JSON.obj []) []) none [] 1)
    ∧ "vegalite" ∈ (Node.mk (JSON.obj []) []).path
    ∧ "vegalite" ∈ (["vegalite"] : List String) :=
  ⟨rfl, by simp [Node.path], by simp⟩

/-- C3 amended: filter soundness holds unconditionally for the path-list
view and for the keys of the graph view; for the tree view it holds for
every tree node provided the root marker vegalite is not itself
blocklisted, because the root node is emitted before any filtering (and
with vegalite blocklisted the root violates the claim, see the
counterexample). -/
theorem c3_filter_soundness :
    (∀ (resolve : String → JSON) (fl : List String) (fuel : Nat) (schema : JSON)
        (ns : List Node),
        process_all_paths_fuel resolve fl fuel schema = some (.ok ns) →
        ∀ n ∈ ns, ∀ p ∈ n.path, p ∉ fl)
    ∧ (∀ (resolve : String → JSON) (fl : List String) (fuel : Nat) (schema : JSON)
        (ns : List Node),
        process_all_paths_fuel resolve fl fuel schema = some (.ok ns) →
        ∀ r ∈ gather_edges ns, r.key ∉ fl)
    ∧ (∀ (resolve : String → JSON) (enum : List Node → List Node) (fl : List String)
        (fuel : Nat) (schema : JSON) (t : Tree), "vegalite" ∉ fl →
        expand_fuel resolve enum fl fuel (Node.mk schema []) = .ok t →
        ∀ s ∈ subtrees t, ∀ p ∈ s.node.path, p ∉ fl) := by
  refine ⟨pap_filter_clean, ?_, ?_⟩
  · intro resolve fl fuel schema ns h r hr
    have hk : r.key ∈ (gather_edges ns).map GRec.key := List.mem_map_of_mem _ hr
    rcases gather_keys_origin ns [] r.key hk with h1 | ⟨n, hn, hkey⟩
    · simp at h1
    · exact pap_filter_clean resolve fl fuel schema ns h n hn r.key hkey
  · intro resolve enum fl fuel schema t hveg h
    refine expand_paths_clean resolve enum fl fuel (Node.mk schema []) t ?_ h
    intro p hp
    simp [Node.path] at hp
    rw [hp]
    exact hveg

/-- C3 witness: the three soundness parts applied to a concrete schema
and the blocklist containing data. -/
theorem c3_witness :
    (∀ n ∈ ([Node.mk (JSON.obj []) []] : List Node), ∀ p ∈ n.path,
        p ∉ (["data"] : List String))
    ∧ (∀ r ∈ gather_edges [Node.mk (JSON.obj []) []], r.key ∉ (["data"] : List String))
    ∧ (∀ s ∈ subtrees (Tree.mk "vegalite" (Node.mk (JSON.obj []) []) none [] 1),
        ∀ p ∈ s.node.path, p ∉ (["data"] : List String)) := by
  refine ⟨?_, ?_, ?_⟩
  · have h := c3_filter_soundness.1 (fun _ => JSON.null) ["data"] 3 (JSON.obj [])
      [Node.mk (JSON.obj []) []] rfl
    exact h
  · have h := c3_filter_soundness.2.1 (fun _ => JSON.null) ["data"] 3 (JSON.obj [])
      [Node.mk (JSON.obj []) []] rfl
    exact h
  · have h := c3_filter_soundness.2.2 (fun _ => JSON.null) id ["data"] 5 (JSON.obj [])
      (Tree.mk "vegalite" (Node.mk (JSON.obj []) []) none [] 1) (by simp) rfl
    exact h

theorem leavesL_eq : ∀ cs : List Tree, leavesL cs = (cs.map leaves).sum := by
  intro cs
  induction cs with
  | nil => rfl
  | cons t ts ih => simp [leavesL, ih]

/-- C4: in every tree the expand function returns, every tree node
satisfies the size invariant: size is the number of descendant tree nodes
with no real children (the node itself included), size is one exactly
when the node itself had no real children, and otherwise size is the sum
of the sizes of its children. -/
theorem c4_tree_size_invariant (resolve : String → JSON) (enum : List Node → List Node)
    (fl : List String) :
    ∀ (fuel : Nat) (node : Node) (t : Tree),
      expand_fuel resolve enum fl fuel node = .ok t →
      ∀ s ∈ subtrees t,
        s.size = leaves s
        ∧ (s.y = none → s.size = 1)
        ∧ (s.y ≠ none → s.size = (s.children.map Tree.size).sum) := by
  intro fuel
  induction fuel with
  | zero => intro node t h; simp [expand_fuel] at h
  | succ fuel ih =>
      intro node t h
      rw [expand_fuel] at h
      split at h
      · simp at h
      · simp at h
      · rename_i cns hrc
        split at h
        · simp at h
          intro s hs
          rw [← h] at hs
          rcases (mem_subtrees_iff s _ _ _ _ _).1 hs with rfl | ⟨k, hk, _⟩
          · exact ⟨rfl, fun _ => rfl, fun hy => absurd rfl hy⟩
          · simp at hk
        · cases hmap : ((enum cns).filter (passesFilter fl)).mapM
              (fun c => expand_fuel resolve enum fl fuel c) with
          | error e => rw [hmap] at h; simp at h
          | ok kids =>
              rw [hmap] at h
              simp at h
              intro s hs
              rw [← h] at hs
              rcases (mem_subtrees_iff s _ _ _ _ _).1 hs with rfl | ⟨k, hk, hsk⟩
              · refine ⟨?_, by simp [Tree.y], fun _ => rfl⟩
                show (kids.map Tree.size).sum = leaves (.mk node.pathstr node
                  (some cns.length) kids ((kids.map Tree.size).sum))
                rw [leaves]
                simp only [leavesL_eq]
                have hcongr : kids.map Tree.size = kids.map leaves := by
                  refine List.map_congr_left fun k hk => ?_
                  obtain ⟨c, _, hck⟩ := mapM_ok_mem _ _ _ hmap k hk
                  exact (ih c k hck k (self_mem_subtrees k)).1
                rw [hcongr]
                simp
              · obtain ⟨c, _, hck⟩ := mapM_ok_mem _ _ _ hmap k hk
                exact ih c k hck s hsk

/-- C4 witness: the invariant instantiated on the tree of the end-to-end
scenario schema. -/
theorem c4_witness :
    ∃ t, expand_fuel (resolvePointer scenarioSchema) id [] 12 (Node.mk scenarioSchema [])
        = .ok t
      ∧ ∀ s ∈ subtrees t,
          s.size = leaves s
          ∧ (s.y = none → s.size = 1)
          ∧ (s.y ≠ none → s.size = (s.children.map Tree.size).sum) :=
  ⟨_, rfl, c4_tree_size_invariant (resolvePointer scenarioSchema) id [] 12
    (Node.mk scenarioSchema []) _ rfl⟩

theorem find?_filter_ne (kvs : List (String × JSON)) (k : String) (hk : k ≠ "$ref") :
    ((kvs.filter fun kv => !(kv.1 == "$ref")).find? fun kv => kv.1 == k)
      = kvs.find? fun kv => kv.1 == k := by
  induction kvs with
  | nil => rfl
  | cons kv rest ih =>
      rw [List.filter_cons]
      by_cases h : kv.1 = "$ref"
      · have hkk : (kv.1 == k) = false := beq_false_of_ne fun he => hk (he.symm.trans h)
        have hkk2 : ("$ref" == k) = false := by rw [← h]; exact hkk
        simp [h, hkk, hkk2, List.find?_cons, ih]
      · have hne : (kv.1 == "$ref") = false := beq_false_of_ne h
        simp [hne, List.find?_cons, ih]

theorem find?_filter_ref (kvs : List (String × JSON)) :
    ((kvs.filter fun kv => !(kv.1 == "$ref")).find? fun kv => kv.1 == "$ref") = none := by
  rw [List.find?_eq_none]
  intro kv hkv
  have h := (List.mem_filter.1 hkv).2
  simpa using h

theorem exceptSeq3_ok (A I P : Except String (List Node)) (mid : List Node)
    (cs : List Node)
    (h : (A.bind fun a => I.bind fun i => P.bind fun p =>
        Except.ok (a ++ mid ++ i ++ p)) = .ok cs) :
    ∃ a i p, A = .ok a ∧ I = .ok i ∧ P = .ok p ∧ cs = a ++ mid ++ i ++ p := by
  cases A with
  | error e => exact Except.noConfusion h
  | ok a =>
      rw [exceptOk_bind] at h
      cases I with
      | error e => exact Except.noConfusion h
      | ok i =>
          rw [exceptOk_bind] at h
          cases P with
          | error e => exact Except.noConfusion h
          | ok p =>
              rw [exceptOk_bind] at h
              exact ⟨a, i, p, rfl, rfl, rfl, (Except.ok.inj h).symm⟩

/-- C5: for a dictionary fragment whose reference field holds the string
ref, the cycle guard makes children behave exactly as on the same
fragment with the reference entries removed when ref already occurs in
the raw path (no reference child and no exception from the guard);
otherwise children emits exactly one extra child, placed between the
union children and the items and property children, wrapping the
resolved fragment, with the raw path extended by ref. -/
theorem c5_reference_clause (resolve : String → JSON) (kvs : List (String × JSON))
    (fp : List String) (ref : String)
    (href : getJ (.obj kvs) "$ref" = .ok (.str ref)) :
    (ref ∈ fp →
      children resolve (Node.mk (.obj kvs) fp)
        = children resolve (Node.mk (.obj (kvs.filter fun kv => !(kv.1 == "$ref"))) fp))
    ∧ (ref ∉ fp → ∀ cs,
        children resolve (Node.mk (.obj (kvs.filter fun kv => !(kv.1 == "$ref"))) fp)
          = .ok cs →
        ∃ pre post, cs = pre ++ post ∧
          children resolve (Node.mk (.obj kvs) fp)
            = .ok (pre ++ [Node.mk (resolve ref) (fp ++ [ref])] ++ post)) := by
  have h1 := find?_filter_ne kvs "anyOf" (by decide)
  have h2 := find?_filter_ne kvs "items" (by decide)
  have h3 := find?_filter_ne kvs "properties" (by decide)
  cases hf : kvs.find? fun kv => kv.1 == "$ref" with
  | none =>
      rw [getJ] at href
      rw [hf] at href
      exact Except.noConfusion href
  | some kv0 =>
      have hkv : kv0.2 = .str ref := by
        rw [getJ] at href
        rw [hf] at href
        exact Except.ok.inj href
      have haEq : anyOfClause (Node.mk (.obj (kvs.filter fun kv => !(kv.1 == "$ref"))) fp)
          = anyOfClause (Node.mk (.obj kvs) fp) := by
        simp only [anyOfClause, containsJ, getJ, h1]
      have hiEq : itemsClause (Node.mk (.obj (kvs.filter fun kv => !(kv.1 == "$ref"))) fp)
          = itemsClause (Node.mk (.obj kvs) fp) := by
        simp only [itemsClause, containsJ, getJ, h2]
      have hpEq : propsClause (Node.mk (.obj (kvs.filter fun kv => !(kv.1 == "$ref"))) fp)
          = propsClause (Node.mk (.obj kvs) fp) := by
        simp only [propsClause, containsJ, getJ, h3]
      have hrNR : refClause resolve
          (Node.mk (.obj (kvs.filter fun kv => !(kv.1 == "$ref"))) fp) = .ok [] := by
        simp [refClause, containsJ, find?_filter_ref]
      constructor
      · intro hin
        have hrIn : refClause resolve (Node.mk (.obj kvs) fp) = .ok [] := by
          simp [refClause, containsJ, getJ, hf, hkv, refKids, hin]
        simp only [children, haEq, hiEq, hpEq, hrIn, hrNR]
      · intro hout cs hcs
        have hrOut : refClause resolve (Node.mk (.obj kvs) fp)
            = .ok [Node.mk (resolve ref) (fp ++ [ref])] := by
          simp [refClause, containsJ, getJ, hf, hkv, refKids, hout]
        simp only [children, haEq, hiEq, hpEq, hrNR, exceptOk_bind] at hcs
        obtain ⟨a, i, p, ha, hi, hp, hcseq⟩ := exceptSeq3_ok _ _ _ [] cs hcs
        refine ⟨a, i ++ p, ?_, ?_⟩
        · rw [hcseq]
          simp
        · simp only [children, ha, hi, hp, hrOut, exceptOk_bind]
          simp [List.append_assoc]

/-- C5 witness: the guard and reference emission instantiated on the
self-referencing fragment, once with the reference already in the raw
path and once without. -/
theorem c5_witness :
    (children (resolvePointer selfDoc) (Node.mk selfFrag ["#/defs/A"])
        = children (resolvePointer selfDoc) (Node.mk (.obj []) ["#/defs/A"]))
    ∧ ∃ pre post, ([] : List Node) = pre ++ post ∧
        children (resolvePointer selfDoc) (Node.mk selfFrag ["A"])
          = .ok (pre ++ [Node.mk selfFrag (["A"] ++ ["#/defs/A"])] ++ post) := by
  constructor
  · exact (c5_reference_clause (resolvePointer selfDoc) [("$ref", .str "#/defs/A")]
      ["#/defs/A"] "#/defs/A" rfl).1 (by simp)
  · exact (c5_reference_clause (resolvePointer selfDoc) [("$ref", .str "#/defs/A")]
      ["A"] "#/defs/A" rfl).2 (by simp) [] rfl

theorem sizeJ_pos (j : JSON) : 1 ≤ sizeJ j := by
  cases j <;> simp [sizeJ]

theorem sizeObj_of_mem (kvs : List (String × JSON)) (kv : String × JSON)
    (h : kv ∈ kvs) : 1 + kv.1.length + sizeJ kv.2 ≤ sizeObj kvs := by
  induction kvs with
  | nil => cases h
  | cons hd tl ih =>
      obtain ⟨k, v⟩ := hd
      rcases List.mem_cons.1 h with rfl | h
      · simp only [sizeObj]
        omega
      · have := ih h
        simp only [sizeObj]
        omega

theorem sizeArr_of_mem (xs : List JSON) (x : JSON) (h : x ∈ xs) :
    sizeJ x ≤ sizeArr xs := by
  induction xs with
  | nil => cases h
  | cons hd tl ih =>
      rcases List.mem_cons.1 h with heq | h
      · subst heq
        simp only [sizeArr]
        omega
      · have := ih h
        simp only [sizeArr]
        omega

theorem refsObj_of_mem (kvs : List (String × JSON)) (kv : String × JSON)
    (h : kv ∈ kvs) : refsJ kv.2 ⊆ refsObj kvs := by
  induction kvs with
  | nil => cases h
  | cons hd tl ih =>
      obtain ⟨k, v⟩ := hd
      rcases List.mem_cons.1 h with rfl | h
      · intro x hx
        simp [refsObj]
        tauto
      · intro x hx
        have := ih h hx
        simp [refsObj]
        tauto

theorem refsArr_of_mem (xs : List JSON) (x : JSON) (h : x ∈ xs) :
    refsJ x ⊆ refsArr xs := by
  induction xs with
  | nil => cases h
  | cons hd tl ih =>
      rcases List.mem_cons.1 h with rfl | h
      · intro y hy
        simp [refsArr]
        tauto
      · intro y hy
        have := ih h hy
        simp [refsArr]
        tauto

theorem ref_pair_mem_refsObj (kvs : List (String × JSON)) (ref : String)
    (h : ("$ref", JSON.str ref) ∈ kvs) : ref ∈ refsObj kvs := by
  induction kvs with
  | nil => cases h
  | cons hd tl ih =>
      obtain ⟨k, v⟩ := hd
      rcases List.mem_cons.1 h with heq | h
      · obtain ⟨hk, hv⟩ := Prod.mk.injEq .. ▸ heq
        subst hk
        subst hv
        simp [refsObj]
      · have := ih h
        simp [refsObj]
        tauto

theorem find?_value_size (kvs : List (String × JSON)) (K : String)
    (kv : String × JSON) (h : (kvs.find? fun kv => kv.1 == K) = some kv) :
    sizeJ kv.2 + 2 ≤ sizeJ (.obj kvs) := by
  have hmem := List.mem_of_find?_eq_some h
  have := sizeObj_of_mem kvs kv hmem
  simp [sizeJ]
  omega

theorem find?_value_refs (kvs : List (String × JSON)) (K : String)
    (kv : String × JSON) (h : (kvs.find? fun kv => kv.1 == K) = some kv) :
    refsJ kv.2 ⊆ refsJ (.obj kvs) := by
  have hmem := List.mem_of_find?_eq_some h
  simpa [refsJ] using refsObj_of_mem kvs kv hmem

theorem iter_spec (v : JSON) (xs : List JSON) (h : iterJ v = .ok xs) :
    ∀ x ∈ xs, sizeJ x ≤ sizeJ v ∧ refsJ x ⊆ refsJ v := by
  cases v with
  | arr elems =>
      intro x hx
      have hxs : xs = elems := by simpa [iterJ] using h.symm
      subst hxs
      constructor
      · have := sizeArr_of_mem xs x hx
        simp only [sizeJ]
        omega
      · intro y hy
        simpa [refsJ] using refsArr_of_mem xs x hx hy
  | obj kvs =>
      intro x hx
      have hxs : xs = kvs.map fun kv => JSON.str kv.1 := by simpa [iterJ] using h.symm
      subst hxs
      obtain ⟨kv, hkv, rfl⟩ := List.mem_map.1 hx
      constructor
      · have h1 := sizeObj_of_mem kvs kv hkv
        have h2 := sizeJ_pos kv.2
        simp only [sizeJ]
        omega
      · simp [refsJ]
  | str s =>
      intro x hx
      have hxs : xs = s.data.map fun c => JSON.str (String.singleton c) := by
        simpa [iterJ] using h.symm
      subst hxs
      obtain ⟨c, hc, rfl⟩ := List.mem_map.1 hx
      constructor
      · have hlen : 0 < s.data.length := List.length_pos.2 (List.ne_nil_of_mem hc)
        have hsl : s.length = s.data.length := rfl
        have hsing : (String.singleton c).length = 1 := rfl
        simp only [sizeJ, hsing]
        omega
      · simp [refsJ]
  | null => simp [iterJ] at h
  | bool b => simp [iterJ] at h
  | num m => simp [iterJ] at h

theorem enumAnyOf_spec (fp : List String) :
    ∀ (i : Nat) (xs : List JSON) (c : Node), c ∈ enumAnyOf fp i xs →
      ∃ x ∈ xs, ∃ m, c = Node.mk x (fp ++ [m]) := by
  intro i xs
  induction xs generalizing i with
  | nil => intro c hc; simp [enumAnyOf] at hc
  | cons x xs ih =>
      intro c hc
      rcases List.mem_cons.1 hc with rfl | hc
      · exact ⟨x, List.mem_cons_self x xs, _, rfl⟩
      · obtain ⟨y, hy, m, hm⟩ := ih (i + 1) c hc
        exact ⟨y, List.mem_cons_of_mem x hy, m, hm⟩

theorem mem_insSorted (le : α → α → Bool) (x a : α) :
    ∀ l : List α, a ∈ insSorted le x l ↔ a = x ∨ a ∈ l := by
  intro l
  induction l with
  | nil => simp [insSorted]
  | cons y ys ih =>
      by_cases h : le y x <;>
        simp only [insSorted, h, if_true, Bool.false_eq_true, if_false,
          List.mem_cons, ih] <;>
        tauto

theorem mem_stableSort (le : α → α → Bool) (a : α) :
    ∀ l : List α, a ∈ stableSort le l ↔ a ∈ l := by
  intro l
  induction l with
  | nil => simp [stableSort]
  | cons x xs ih =>
      simp [stableSort, mem_insSorted, ih]

theorem length_insSorted (le : α → α → Bool) (x : α) :
    ∀ l : List α, (insSorted le x l).length = l.length + 1 := by
  intro l
  induction l with
  | nil => rfl
  | cons y ys ih =>
      by_cases h : le y x
      · simp [insSorted, h, ih]
      · simp [insSorted, h]

theorem length_stableSort (le : α → α → Bool) :
    ∀ l : List α, (stableSort le l).length = l.length := by
  intro l
  induction l with
  | nil => rfl
  | cons x xs ih => simp [stableSort, length_insSorted, ih]

theorem clause_ok_cases (s : JSON) (K : String)
    (payload : JSON → Except String (List Node)) (cs : List Node)
    (h : ((containsJ s K).bind fun b =>
        if b then (getJ s K).bind payload else .ok []) = .ok cs) :
    cs = [] ∨ ∃ kvs kv, s = .obj kvs
      ∧ (kvs.find? fun kv => kv.1 == K) = some kv ∧ payload kv.2 = .ok cs := by
  cases s with
  | obj kvs =>
      simp only [containsJ, exceptOk_bind] at h
      cases hfa : kvs.find? fun kv => kv.1 == K with
      | none =>
          rw [hfa] at h
          simp at h
          left
          exact h
      | some kv =>
          rw [hfa] at h
          simp only [Option.isSome_some, if_true] at h
          have hg : getJ (.obj kvs) K = .ok kv.2 := by simp [getJ, hfa]
          rw [hg, exceptOk_bind] at h
          right
          exact ⟨kvs, kv, rfl, hfa, h⟩
  | str s2 =>
      simp only [containsJ, exceptOk_bind] at h
      by_cases hb : isSubB K.data s2.data = true
      · rw [if_pos hb] at h
        simp only [getJ, exceptErr_bind] at h
        exact Except.noConfusion h
      · rw [if_neg hb] at h
        left
        exact (Except.ok.inj h).symm
  | arr xs =>
      simp only [containsJ, exceptOk_bind] at h
      by_cases hb : (xs.any fun x =>
          match x with | .str s => s == K | _ => false) = true
      · rw [if_pos hb] at h
        simp only [getJ, exceptErr_bind] at h
        exact Except.noConfusion h
      · rw [if_neg hb] at h
        left
        exact (Except.ok.inj h).symm
  | null => simp only [containsJ, exceptErr_bind] at h; exact Except.noConfusion h
  | bool b => simp only [containsJ, exceptErr_bind] at h; exact Except.noConfusion h
  | num m => simp only [containsJ, exceptErr_bind] at h; exact Except.noConfusion h

theorem exceptSeq4_ok (A R I P : Except String (List Node)) (cs : List Node)
    (h : (A.bind fun a => R.bind fun r => I.bind fun i => P.bind fun p =>
        Except.ok (a ++ r ++ i ++ p)) = .ok cs) :
    ∃ a r i p, A = .ok a ∧ R = .ok r ∧ I = .ok i ∧ P = .ok p
      ∧ cs = a ++ r ++ i ++ p := by
  cases A with
  | error e => exact Except.noConfusion h
  | ok a =>
      rw [exceptOk_bind] at h
      cases R with
      | error e => exact Except.noConfusion h
      | ok r =>
          rw [exceptOk_bind] at h
          cases I with
          | error e => exact Except.noConfusion h
          | ok i =>
              rw [exceptOk_bind] at h
              cases P with
              | error e => exact Except.noConfusion h
              | ok p =>
                  rw [exceptOk_bind] at h
                  exact ⟨a, r, i, p, rfl, rfl, rfl, rfl, (Except.ok.inj h).symm⟩

theorem anyOfClause_spec (n : Node) (cs : List Node) (h : anyOfClause n = .ok cs) :
    ∀ c ∈ cs, (∃ m, c.full_path = n.full_path ++ [m])
      ∧ sizeJ c.schema < sizeJ n.schema ∧ refsJ c.schema ⊆ refsJ n.schema := by
  rw [anyOfClause] at h
  rcases clause_ok_cases n.schema "anyOf" _ cs h with rfl | ⟨kvs, kva, hobj, hfa, hpay⟩
  · intro c hc; cases hc
  · cases hit : iterJ kva.2 with
    | error e => rw [hit, exceptErr_bind] at hpay; exact Except.noConfusion hpay
    | ok xs =>
        rw [hit, exceptOk_bind] at hpay
        have hcs : cs = enumAnyOf n.full_path 0 xs := (Except.ok.inj hpay).symm
        subst hcs
        intro c hc
        obtain ⟨x, hx, m, rfl⟩ := enumAnyOf_spec n.full_path 0 xs c hc
        have hiter := iter_spec kva.2 xs hit x hx
        have hsz := find?_value_size kvs "anyOf" kva hfa
        have hrefs := find?_value_refs kvs "anyOf" kva hfa
        refine ⟨⟨m, rfl⟩, ?_, ?_⟩
        · show sizeJ x < sizeJ n.schema
          rw [hobj]
          have h1 := hiter.1
          omega
        · show refsJ x ⊆ refsJ n.schema
          rw [hobj]
          exact hiter.2.trans hrefs

theorem refClause_spec (resolve : String → JSON) (n : Node) (cs : List Node)
    (h : refClause resolve n = .ok cs) :
    ∀ c ∈ cs, ∃ ref, c = Node.mk (resolve ref) (n.full_path ++ [ref])
      ∧ ref ∈ refsJ n.schema ∧ ref ∉ n.full_path := by
  rw [refClause] at h
  rcases clause_ok_cases n.schema "$ref" _ cs h with rfl | ⟨kvs, kvr, hobj, hfa, hpay⟩
  · intro c hc; cases hc
  · cases hv : kvr.2 with
    | str ref =>
        rw [hv] at hpay
        rw [refKids] at hpay
        by_cases hin : ref ∈ n.full_path
        · rw [if_pos hin] at hpay
          have hcs : cs = [] := (Except.ok.inj hpay).symm
          subst hcs
          intro c hc; cases hc
        · rw [if_neg hin] at hpay
          have hcs : cs = [Node.mk (resolve ref) (n.full_path ++ [ref])] :=
            (Except.ok.inj hpay).symm
          subst hcs
          intro c hc
          have hc1 : c = Node.mk (resolve ref) (n.full_path ++ [ref]) := by
            simpa using hc
          refine ⟨ref, hc1, ?_, hin⟩
          have hk1 : kvr.1 = "$ref" := by simpa using List.find?_some hfa
          have hpair : ("$ref", JSON.str ref) ∈ kvs := by
            have hmem := List.mem_of_find?_eq_some hfa
            have : kvr = ("$ref", JSON.str ref) := by
              cases kvr
              simp at hk1 hv
              simp [hk1, hv]
            rwa [this] at hmem
          rw [hobj]
          simpa [refsJ] using ref_pair_mem_refsObj kvs ref hpair
    | null => rw [hv] at hpay; exact Except.noConfusion hpay
    | bool b => rw [hv] at hpay; exact Except.noConfusion hpay
    | num m => rw [hv] at hpay; exact Except.noConfusion hpay
    | arr a => rw [hv] at hpay; exact Except.noConfusion hpay
    | obj o => rw [hv] at hpay; exact Except.noConfusion hpay

theorem itemsClause_spec (n : Node) (cs : List Node) (h : itemsClause n = .ok cs) :
    ∀ c ∈ cs, (∃ m, c.full_path = n.full_path ++ [m])
      ∧ sizeJ c.schema < sizeJ n.schema ∧ refsJ c.schema ⊆ refsJ n.schema := by
  rw [itemsClause] at h
  rcases clause_ok_cases n.schema "items" _ cs h with rfl | ⟨kvs, kvi, hobj, hfa, hpay⟩
  · intro c hc; cases hc
  · have hcs : cs = [Node.mk kvi.2 (n.full_path ++ ["items"])] :=
      (Except.ok.inj hpay).symm
    subst hcs
    intro c hc
    have hc1 : c = Node.mk kvi.2 (n.full_path ++ ["items"]) := by simpa using hc
    subst hc1
    have hsz := find?_value_size kvs "items" kvi hfa
    have hrefs := find?_value_refs kvs "items" kvi hfa
    refine ⟨⟨"items", rfl⟩, ?_, ?_⟩
    · show sizeJ kvi.2 < sizeJ n.schema
      rw [hobj]
      omega
    · show refsJ kvi.2 ⊆ refsJ n.schema
      rw [hobj]
      exact hrefs

theorem propsClause_spec (n : Node) (cs : List Node) (h : propsClause n = .ok cs) :
    ∀ c ∈ cs, (∃ m, c.full_path = n.full_path ++ [m])
      ∧ sizeJ c.schema < sizeJ n.schema ∧ refsJ c.schema ⊆ refsJ n.schema := by
  rw [propsClause] at h
  rcases clause_ok_cases n.schema "properties" _ cs h with rfl | ⟨kvs, kvp, hobj, hfa, hpay⟩
  · intro c hc; cases hc
  · cases hv : kvp.2 with
    | obj kvs2 =>
        rw [hv, propKids] at hpay
        have hcs : cs = (sortPairs kvs2).map fun kv =>
            Node.mk kv.2 (n.full_path ++ [kv.1]) := (Except.ok.inj hpay).symm
        subst hcs
        intro c hc
        obtain ⟨kv2, hkv2, rfl⟩ := List.mem_map.1 hc
        have hkv2m : kv2 ∈ kvs2 := (mem_stableSort _ kv2 kvs2).1 hkv2
        have h1 := sizeObj_of_mem kvs2 kv2 hkv2m
        have hsz := find?_value_size kvs "properties" kvp hfa
        rw [hv] at hsz
        have hrefs := find?_value_refs kvs "properties" kvp hfa
        rw [hv] at hrefs
        refine ⟨⟨kv2.1, rfl⟩, ?_, ?_⟩
        · show sizeJ kv2.2 < sizeJ n.schema
          rw [hobj]
          simp only [sizeJ] at hsz ⊢
          omega
        · show refsJ kv2.2 ⊆ refsJ n.schema
          rw [hobj]
          refine List.Subset.trans ?_ hrefs
          simpa [refsJ] using refsObj_of_mem kvs2 kv2 hkv2m
    | null => rw [hv] at hpay; exact Except.noConfusion hpay
    | bool b => rw [hv] at hpay; exact Except.noConfusion hpay
    | num m => rw [hv] at hpay; exact Except.noConfusion hpay
    | arr a => rw [hv] at hpay; exact Except.noConfusion hpay
    | str s2 => rw [hv] at hpay; exact Except.noConfusion hpay

theorem children_spec (resolve : String → JSON) (n : Node) (cs : List Node)
    (h : children resolve n = .ok cs) :
    ∀ c ∈ cs,
      (∃ ref, c = Node.mk (resolve ref) (n.full_path ++ [ref])
        ∧ ref ∈ refsJ n.schema ∧ ref ∉ n.full_path)
      ∨ ((∃ m, c.full_path = n.full_path ++ [m])
        ∧ sizeJ c.schema < sizeJ n.schema ∧ refsJ c.schema ⊆ refsJ n.schema) := by
  rw [children] at h
  obtain ⟨a, r, i, p, hA, hR, hI, hP, rfl⟩ := exceptSeq4_ok _ _ _ _ cs h
  intro c hc
  rcases List.mem_append.1 hc with hc1 | hcp
  · rcases List.mem_append.1 hc1 with hc2 | hci
    · rcases List.mem_append.1 hc2 with hca | hcr
      · exact Or.inr (anyOfClause_spec n a hA c hca)
      · exact Or.inl (refClause_spec resolve n r hR c hcr)
    · exact Or.inr (itemsClause_spec n i hI c hci)
  · exact Or.inr (propsClause_spec n p hP c hcp)

theorem enumAnyOf_length (fp : List String) :
    ∀ (i : Nat) (xs : List JSON), (enumAnyOf fp i xs).length = xs.length := by
  intro i xs
  induction xs generalizing i with
  | nil => rfl
  | cons x xs ih => simp [enumAnyOf, ih]

theorem sizeArr_ge_len (xs : List JSON) : xs.length ≤ sizeArr xs := by
  induction xs with
  | nil => simp [sizeArr]
  | cons x xs ih =>
      have := sizeJ_pos x
      simp only [List.length_cons, sizeArr]
      omega

theorem sizeObj_ge_len (kvs : List (String × JSON)) : kvs.length ≤ sizeObj kvs := by
  induction kvs with
  | nil => simp [sizeObj]
  | cons kv kvs ih =>
      obtain ⟨k, v⟩ := kv
      simp only [List.length_cons, sizeObj]
      omega

theorem iter_len (v : JSON) (xs : List JSON) (h : iterJ v = .ok xs) :
    xs.length ≤ sizeJ v := by
  cases v with
  | arr elems =>
      have hxs : xs = elems := by simpa [iterJ] using h.symm
      subst hxs
      have := sizeArr_ge_len xs
      simp only [sizeJ]
      omega
  | obj kvs =>
      have hxs : xs = kvs.map fun kv => JSON.str kv.1 := by simpa [iterJ] using h.symm
      subst hxs
      have := sizeObj_ge_len kvs
      simp only [sizeJ, List.length_map]
      omega
  | str s =>
      have hxs : xs = s.data.map fun c => JSON.str (String.singleton c) := by
        simpa [iterJ] using h.symm
      subst hxs
      have hsl : s.length = s.data.length := rfl
      simp only [sizeJ, List.length_map]
      omega
  | null => simp [iterJ] at h
  | bool b => simp [iterJ] at h
  | num m => simp [iterJ] at h

theorem anyOfClause_len (n : Node) (cs : List Node) (h : anyOfClause n = .ok cs) :
    cs.length ≤ sizeJ n.schema := by
  rw [anyOfClause] at h
  rcases clause_ok_cases n.schema "anyOf" _ cs h with rfl | ⟨kvs, kva, hobj, hfa, hpay⟩
  · simp
  · cases hit : iterJ kva.2 with
    | error e => rw [hit, exceptErr_bind] at hpay; exact Except.noConfusion hpay
    | ok xs =>
        rw [hit, exceptOk_bind] at hpay
        have hcs : cs = enumAnyOf n.full_path 0 xs := (Except.ok.inj hpay).symm
        subst hcs
        rw [enumAnyOf_length]
        have h1 := iter_len kva.2 xs hit
        have h2 := find?_value_size kvs "anyOf" kva hfa
        rw [hobj]
        omega

theorem refClause_len (resolve : String → JSON) (n : Node) (cs : List Node)
    (h : refClause resolve n = .ok cs) : cs.length ≤ 1 := by
  rw [refClause] at h
  rcases clause_ok_cases n.schema "$ref" _ cs h with rfl | ⟨kvs, kvr, hobj, hfa, hpay⟩
  · simp
  · cases hv : kvr.2 with
    | str ref =>
        rw [hv, refKids] at hpay
        by_cases hin : ref ∈ n.full_path
        · rw [if_pos hin] at hpay
          rw [← Except.ok.inj hpay]
          simp
        · rw [if_neg hin] at hpay
          rw [← Except.ok.inj hpay]
          simp
    | null => rw [hv] at hpay; exact Except.noConfusion hpay
    | bool b => rw [hv] at hpay; exact Except.noConfusion hpay
    | num m => rw [hv] at hpay; exact Except.noConfusion hpay
    | arr a => rw [hv] at hpay; exact Except.noConfusion hpay
    | obj o => rw [hv] at hpay; exact Except.noConfusion hpay

theorem itemsClause_len (n : Node) (cs : List Node) (h : itemsClause n = .ok cs) :
    cs.length ≤ 1 := by
  rw [itemsClause] at h
  rcases clause_ok_cases n.schema "items" _ cs h with rfl | ⟨kvs, kvi, hobj, hfa, hpay⟩
  · simp
  · rw [← Except.ok.inj hpay]
    simp

theorem propsClause_len (n : Node) (cs : List Node) (h : propsClause n = .ok cs) :
    cs.length ≤ sizeJ n.schema := by
  rw [propsClause] at h
  rcases clause_ok_cases n.schema "properties" _ cs h with rfl | ⟨kvs, kvp, hobj, hfa, hpay⟩
  · simp
  · cases hv : kvp.2 with
    | obj kvs2 =>
        rw [hv, propKids] at hpay
        rw [← Except.ok.inj hpay]
        simp only [List.length_map]
        rw [sortPairs, length_stableSort]
        have h1 := sizeObj_ge_len kvs2
        have h2 := find?_value_size kvs "properties" kvp hfa
        rw [hv] at h2
        rw [hobj]
        simp only [sizeJ] at h2 ⊢
        omega
    | null => rw [hv] at hpay; exact Except.noConfusion hpay
    | bool b => rw [hv] at hpay; exact Except.noConfusion hpay
    | num m => rw [hv] at hpay; exact Except.noConfusion hpay
    | arr a => rw [hv] at hpay; exact Except.noConfusion hpay
    | str s2 => rw [hv] at hpay; exact Except.noConfusion hpay

theorem children_len (resolve : String → JSON) (n : Node) (cs : List Node)
    (h : children resolve n = .ok cs) : cs.length ≤ 2 * sizeJ n.schema + 2 := by
  rw [children] at h
  obtain ⟨a, r, i, p, hA, hR, hI, hP, rfl⟩ := exceptSeq4_ok _ _ _ _ cs h
  have h1 := anyOfClause_len n a hA
  have h2 := refClause_len resolve n r hR
  have h3 := itemsClause_len n i hI
  have h4 := propsClause_len n p hP
  simp only [List.length_append]
  omega

theorem not_contains_iff (l : List String) (a : String) :
    (!(l.contains a)) = true ↔ a ∉ l := by
  simp

theorem filter_len_mono (l : List String) (p q : String → Bool)
    (himp : ∀ a, p a = true → q a = true) :
    (l.filter p).length ≤ (l.filter q).length := by
  induction l with
  | nil => simp
  | cons x xs ih =>
      rw [List.filter_cons, List.filter_cons]
      cases hp : p x with
      | false =>
          cases hq : q x with
          | false => simpa using ih
          | true =>
              simp only [if_true]
              calc (List.filter p xs).length ≤ (List.filter q xs).length := ih
                _ ≤ (x :: List.filter q xs).length := by simp
      | true =>
          rw [himp x hp]
          simpa using ih

theorem filter_len_lt (l : List String) (p q : String → Bool)
    (himp : ∀ a, p a = true → q a = true) (x : String) (hx : x ∈ l)
    (hqx : q x = true) (hpx : p x = false) :
    (l.filter p).length < (l.filter q).length := by
  induction l with
  | nil => cases hx
  | cons y ys ih =>
      rw [List.filter_cons, List.filter_cons]
      rcases List.mem_cons.1 hx with heq | hmem
      · subst heq
        rw [hpx, hqx]
        have := filter_len_mono ys p q himp
        simp only [Bool.false_eq_true, if_false, if_true, List.length_cons]
        omega
      · cases hp : p y with
        | true =>
            rw [himp y hp]
            have := ih hmem
            simp only [if_true, List.length_cons]
            omega
        | false =>
            cases hq : q y with
            | false =>
                simpa using ih hmem
            | true =>
                have := ih hmem
                simp only [Bool.false_eq_true, if_false, if_true, List.length_cons]
                omega

theorem phiN_pos (R : List String) (S : Nat) (c : Node) : 1 ≤ phiN R S c := by
  have := sizeJ_pos c.schema
  unfold phiN
  omega

theorem phi_child_lt (R : List String) (S : Nat) (resolve : String → JSON)
    (HS : ∀ s, sizeJ (resolve s) ≤ S) (HR : ∀ s, refsJ (resolve s) ⊆ R)
    (n c : Node) (hsize : sizeJ n.schema ≤ S) (hrefs : refsJ n.schema ⊆ R)
    (hc : (∃ ref, c = Node.mk (resolve ref) (n.full_path ++ [ref])
        ∧ ref ∈ refsJ n.schema ∧ ref ∉ n.full_path)
      ∨ ((∃ m, c.full_path = n.full_path ++ [m])
        ∧ sizeJ c.schema < sizeJ n.schema ∧ refsJ c.schema ⊆ refsJ n.schema)) :
    phiN R S c < phiN R S n ∧ sizeJ c.schema ≤ S ∧ refsJ c.schema ⊆ R := by
  rcases hc with ⟨ref, rfl, hrin, hrout⟩ | ⟨⟨m, hm⟩, hlt, hsub⟩
  · refine ⟨?_, HS ref, HR ref⟩
    unfold phiN
    dsimp only
    have himp : ∀ a, (!((n.full_path ++ [ref]).contains a)) = true →
        (!(n.full_path.contains a)) = true := by
      intro a ha
      rw [not_contains_iff] at ha ⊢
      intro hmem
      exact ha (by simp [hmem])
    have hflt := filter_len_lt R _ _ himp ref (hrefs hrin)
      ((not_contains_iff _ _).2 hrout)
      (by simp)
    have hS := HS ref
    set f2 := (R.filter fun r => !((n.full_path ++ [ref]).contains r)).length with hf2
    set f1 := (R.filter fun r => !(n.full_path.contains r)).length with hf1
    have h2 : (f2 + 1) * (S + 1) ≤ f1 * (S + 1) := Nat.mul_le_mul_right _ (by omega)
    have hexp : (f2 + 1) * (S + 1) = f2 * (S + 1) + (S + 1) := by ring
    have hp := sizeJ_pos n.schema
    omega
  · refine ⟨?_, by omega, hsub.trans hrefs⟩
    unfold phiN
    have himp : ∀ a, (!(c.full_path.contains a)) = true →
        (!(n.full_path.contains a)) = true := by
      intro a ha
      rw [not_contains_iff] at ha ⊢
      intro hmem
      exact ha (by rw [hm]; simp [hmem])
    have hmono := filter_len_mono R _ _ himp
    set f2 := (R.filter fun r => !(c.full_path.contains r)).length with hf2
    set f1 := (R.filter fun r => !(n.full_path.contains r)).length with hf1
    rcases Nat.lt_or_ge f2 f1 with h12 | h12
    · have h2 : (f2 + 1) * (S + 1) ≤ f1 * (S + 1) := Nat.mul_le_mul_right _ (by omega)
      have hexp : (f2 + 1) * (S + 1) = f2 * (S + 1) + (S + 1) := by ring
      omega
    · have he : f2 = f1 := le_antisymm hmono h12
      rw [he]
      omega

theorem sum_map_le {β : Type} (l : List β) (f : β → Nat) (m : Nat)
    (h : ∀ x ∈ l, f x ≤ m) : (l.map f).sum ≤ l.length * m := by
  induction l with
  | nil => simp
  | cons x xs ih =>
      simp only [List.map_cons, List.sum_cons, List.length_cons]
      have h1 := h x (by simp)
      have h2 := ih fun y hy => h y (by simp [hy])
      have h3 : (xs.length + 1) * m = xs.length * m + m := by ring
      omega

theorem qMeasure_cons (R : List String) (S B : Nat) (c : Node) (queue : List Node) :
    qMeasure R S B (c :: queue) = B ^ phiN R S c + qMeasure R S B queue := by
  simp [qMeasure]

theorem qMeasure_append (R : List String) (S B : Nat) (l1 l2 : List Node) :
    qMeasure R S B (l1 ++ l2) = qMeasure R S B l1 + qMeasure R S B l2 := by
  simp [qMeasure]

theorem qMeasure_reverse (R : List String) (S B : Nat) (l : List Node) :
    qMeasure R S B l.reverse = qMeasure R S B l := by
  simp [qMeasure, List.map_reverse, List.sum_reverse]

theorem qMeasure_expand_lt (R : List String) (S : Nat) (resolve : String → JSON)
    (HS : ∀ s, sizeJ (resolve s) ≤ S) (HR : ∀ s, refsJ (resolve s) ⊆ R)
    (c : Node) (cs : List Node)
    (hcsize : sizeJ c.schema ≤ S) (hcrefs : refsJ c.schema ⊆ R)
    (hch : children resolve c = .ok cs) :
    qMeasure R S (2 * S + 3) cs.reverse < (2 * S + 3) ^ phiN R S c := by
  rw [qMeasure_reverse]
  have hlen := children_len resolve c cs hch
  have hspec := children_spec resolve c cs hch
  have hbound : ∀ x ∈ cs, (2 * S + 3) ^ phiN R S x ≤ (2 * S + 3) ^ (phiN R S c - 1) := by
    intro x hx
    apply Nat.pow_le_pow_right (by omega)
    have := (phi_child_lt R S resolve HS HR c x hcsize hcrefs (hspec x hx)).1
    omega
  have hsum := sum_map_le cs _ _ hbound
  have h1 : cs.length ≤ 2 * S + 2 := by omega
  have hphi : 1 ≤ phiN R S c := phiN_pos R S c
  have hx1 : 1 ≤ (2 * S + 3) ^ (phiN R S c - 1) := Nat.one_le_pow _ _ (by omega)
  have hpow : (2 * S + 3) ^ phiN R S c
      = (2 * S + 3) ^ (phiN R S c - 1) * (2 * S + 3) := by
    conv_lhs => rw [show phiN R S c = (phiN R S c - 1) + 1 by omega]
    rw [pow_succ]
  have hq : qMeasure R S (2 * S + 3) cs
      = (cs.map fun x => (2 * S + 3) ^ phiN R S x).sum := by simp [qMeasure]
  have h2 : cs.length * (2 * S + 3) ^ (phiN R S c - 1)
      ≤ (2 * S + 2) * (2 * S + 3) ^ (phiN R S c - 1) := Nat.mul_le_mul_right _ h1
  have h3 : (2 * S + 2) * (2 * S + 3) ^ (phiN R S c - 1)
      + (2 * S + 3) ^ (phiN R S c - 1)
      = (2 * S + 3) * (2 * S + 3) ^ (phiN R S c - 1) := by ring
  have h4 : (2 * S + 3) * (2 * S + 3) ^ (phiN R S c - 1)
      = (2 * S + 3) ^ phiN R S c := by rw [hpow]; ring
  omega

theorem rcLoop_term (resolve : String → JSON) (R : List String) (S : Nat)
    (HS : ∀ s, sizeJ (resolve s) ≤ S) (HR : ∀ s, refsJ (resolve s) ⊆ R)
    (rp : List String) :
    ∀ (fuel : Nat) (queue acc : List Node),
      (∀ c ∈ queue, sizeJ c.schema ≤ S ∧ refsJ c.schema ⊆ R) →
      qMeasure R S (2 * S + 3) queue < fuel →
      ∃ r, rcLoop resolve rp fuel queue acc = some r := by
  intro fuel
  induction fuel with
  | zero => intro queue acc hinv hm; exact absurd hm (Nat.not_lt_zero _)
  | succ fuel ih =>
      intro queue acc hinv hm
      cases queue with
      | nil => exact ⟨.ok acc, rfl⟩
      | cons c rest =>
          by_cases hcp : c.path = rp
          · cases hch : children resolve c with
            | error e =>
                refine ⟨.error e, ?_⟩
                rw [rcLoop, if_pos hcp, hch]
            | ok cs =>
                have hc := hinv c (by simp)
                have hkey := qMeasure_expand_lt R S resolve HS HR c cs hc.1 hc.2 hch
                have hrest : qMeasure R S (2 * S + 3) (cs.reverse ++ rest) < fuel := by
                  rw [qMeasure_append]
                  rw [qMeasure_cons] at hm
                  omega
                have hinv2 : ∀ x ∈ cs.reverse ++ rest,
                    sizeJ x.schema ≤ S ∧ refsJ x.schema ⊆ R := by
                  intro x hx
                  rcases List.mem_append.1 hx with hx1 | hx2
                  · have hx3 : x ∈ cs := List.mem_reverse.1 hx1
                    have h5 := phi_child_lt R S resolve HS HR c x hc.1 hc.2
                      (children_spec resolve c cs hch x hx3)
                    exact ⟨h5.2.1, h5.2.2⟩
                  · exact hinv x (by simp [hx2])
                obtain ⟨r, hr⟩ := ih (cs.reverse ++ rest) acc hinv2 hrest
                refine ⟨r, ?_⟩
                rw [rcLoop, if_pos hcp, hch]
                exact hr
          · have hrest : qMeasure R S (2 * S + 3) rest < fuel := by
              rw [qMeasure_cons] at hm
              have h1 : 1 ≤ (2 * S + 3) ^ phiN R S c := Nat.one_le_pow _ _ (by omega)
              omega
            obtain ⟨r, hr⟩ := ih rest (setAdd acc c)
              (fun x hx => hinv x (by simp [hx])) hrest
            refine ⟨r, ?_⟩
            rw [rcLoop, if_neg hcp]
            exact hr

/-- C6: real_children terminates on every node whose fragment draws its
sizes and references from a bounded pool, as holds for resolution within
a fixed finite document (the resolver returns fragments of size at most S
carrying references from the finite list R); and on the self-referencing
document the full traversal terminates with the canonical path of the
self-referencing fragment appearing exactly once and its real-children
set empty, so there is no child edge back to itself. -/
theorem c6_termination :
    (∀ (resolve : String → JSON) (S : Nat) (R : List String),
        (∀ s, sizeJ (resolve s) ≤ S) → (∀ s, refsJ (resolve s) ⊆ R) →
        ∀ n : Node, sizeJ n.schema ≤ S → refsJ n.schema ⊆ R →
          ∃ fuel r, real_children_fuel resolve fuel n = some r)
    ∧ process_all_paths_fuel (resolvePointer selfDoc) [] 10 selfDoc
        = some (.ok [Node.mk selfDoc [], Node.mk selfFrag ["A"]])
    ∧ real_children_fuel (resolvePointer selfDoc) 10 (Node.mk selfFrag ["A"])
        = some (.ok []) := by
  refine ⟨?_, rfl, rfl⟩
  intro resolve S R HS HR n hsize hrefs
  cases hch : children resolve n with
  | error e =>
      refine ⟨1, .error e, ?_⟩
      rw [real_children_fuel, hch]
  | ok cs =>
      have hinv : ∀ x ∈ cs.reverse, sizeJ x.schema ≤ S ∧ refsJ x.schema ⊆ R := by
        intro x hx
        have hx3 : x ∈ cs := List.mem_reverse.1 hx
        have h5 := phi_child_lt R S resolve HS HR n x hsize hrefs
          (children_spec resolve n cs hch x hx3)
        exact ⟨h5.2.1, h5.2.2⟩
      obtain ⟨r, hr⟩ := rcLoop_term resolve R S HS HR n.path
        (qMeasure R S (2 * S + 3) cs.reverse + 1) cs.reverse [] hinv (by omega)
      refine ⟨qMeasure R S (2 * S + 3) cs.reverse + 1, r, ?_⟩
      rw [real_children_fuel, hch]
      exact hr

/-- C6 witness: the termination statement applied to a concrete resolver
and node. -/
theorem c6_witness :
    ∃ fuel r, real_children_fuel (fun _ => JSON.null) fuel (Node.mk JSON.null [])
      = some r :=
  c6_termination.1 (fun _ => JSON.null) 1 []
    (fun _ => by simp [sizeJ]) (fun _ => by simp [refsJ])
    (Node.mk JSON.null []) (by simp [sizeJ]) (by simp [refsJ])

end VL
